import Mathlib

/-!
# Verification of the `enum-display` derive pipeline

A shallow embedding of `enum-display-macro/src/lib.rs`: the attribute
readers (`EnumAttrs`, `VariantAttrs`), the numeric-placeholder rewriter
(`translate_numeric_placeholders`), the variant classifier
(`VariantIR::from_variant`) and the arm synthesizer (`generate`), together
with a rendering semantics for the generated match arms.

Conventions of the embedding:
* `syn` metadata is modelled by `NMeta` (covering both `Meta` and
  `NestedMeta`); `attr.parse_meta().unwrap()` is modelled by storing the
  already-parsed `NMeta` in the attribute.
* `panic!` is modelled by `Except String` (the message is kept).
* The external `convert_case` library is a parameter
  `conv : Case → String → String`.
* The regex character classes `\d` and `\s` are modelled by their ASCII
  fragments `Char.isDigit` and `Char.isWhitespace`.
* Functions that scan a string with non-structural recursion
  (`translate_numeric_placeholders`, the format evaluator) take explicit
  fuel, instantiated with the string length; fuel-irrelevance lemmas below
  show the value does not depend on the fuel once it is large enough.
-/

/-- The seventeen case kinds of `convert_case::Case` used by the macro. -/
inductive Case where
  | upper | lower | title | toggle | camel | pascal | upperCamel
  | snake | upperSnake | screamingSnake | kebab | cobol | upperKebab
  | train | flat | upperFlat | alternating
  deriving DecidableEq, Repr

/-- `syn::Lit`, restricted to the shapes the macro inspects. -/
inductive Lit where
  | str (value : String)
  | int (value : Nat)
  | boolean (value : Bool)
  deriving DecidableEq, Repr

/-- `syn::Meta` and `syn::NestedMeta` merged into one type: `metaPath`,
`metaList` and `metaNameValue` are the `Meta` shapes, `litMeta` is the
`NestedMeta::Lit` shape. -/
inductive NMeta where
  | metaPath (path : String)
  | metaList (path : String) (nested : List NMeta)
  | metaNameValue (path : String) (lit : Lit)
  | litMeta (lit : Lit)

/-- A `syn::Attribute` whose payload has already been parsed
(`attr.parse_meta().unwrap()`). -/
structure Attribute where
  path : String
  meta : NMeta

-- Enum attributes (`EnumAttrs` in the source)

structure EnumAttrs where
  case_transform : Option Case
  deriving DecidableEq, Repr

/-- `EnumAttrs::parse_case_name`: the match over the seventeen case names;
the catch-all arm `panic!("Unrecognized case name: {case_name}")` becomes
an `Except.error` carrying the same message. -/
def parse_case_name (case_name : String) : Except String Case :=
  if case_name = "Upper" then .ok .upper
  else if case_name = "Lower" then .ok .lower
  else if case_name = "Title" then .ok .title
  else if case_name = "Toggle" then .ok .toggle
  else if case_name = "Camel" then .ok .camel
  else if case_name = "Pascal" then .ok .pascal
  else if case_name = "UpperCamel" then .ok .upperCamel
  else if case_name = "Snake" then .ok .snake
  else if case_name = "UpperSnake" then .ok .upperSnake
  else if case_name = "ScreamingSnake" then .ok .screamingSnake
  else if case_name = "Kebab" then .ok .kebab
  else if case_name = "Cobol" then .ok .cobol
  else if case_name = "UpperKebab" then .ok .upperKebab
  else if case_name = "Train" then .ok .train
  else if case_name = "Flat" then .ok .flat
  else if case_name = "UpperFlat" then .ok .upperFlat
  else if case_name = "Alternating" then .ok .alternating
  else .error ("Unrecognized case name: " ++ case_name)

/-- One step of the inner loop of `EnumAttrs::from_attrs`
(`for nested in list.nested`): a `case = "<name>"` name-value entry
overwrites the accumulator, every other nested shape is skipped. -/
def EnumAttrs.applyNested (acc : Option Case) (n : NMeta) :
    Except String (Option Case) :=
  match n with
  | .metaNameValue p (.str s) =>
      if p = "case" then do pure (some (← parse_case_name s)) else pure acc
  | _ => pure acc

/-- One step of the outer loop of `EnumAttrs::from_attrs`
(`for attr in attrs`): only attributes named `enum_display` with a
list-style payload are inspected. -/
def EnumAttrs.applyAttr (acc : Option Case) (attr : Attribute) :
    Except String (Option Case) :=
  if attr.path = "enum_display" then
    match attr.meta with
    | .metaList _ nested => nested.foldlM EnumAttrs.applyNested acc
    | _ => pure acc
  else pure acc

/-- `EnumAttrs::from_attrs`. -/
def EnumAttrs.from_attrs (attrs : List Attribute) : Except String EnumAttrs :=
  (attrs.foldlM EnumAttrs.applyAttr none).map EnumAttrs.mk

/-- `EnumAttrs::transform_case`; `conv` is the external
`convert_case::Casing::to_case`. -/
def EnumAttrs.transform_case (conv : Case → String → String)
    (self : EnumAttrs) (ident : String) : String :=
  match self.case_transform with
  | some c => conv c ident
  | none => ident

-- The numeric-placeholder rewriter
-- (`VariantAttrs::translate_numeric_placeholders` in the source)

/-- An attempt to match the tail of the regex
`\{\s*(\d+)\s*([^}]*)\}` at a position just after an opening brace:
returns `(digits, spec, rest)` on success (the two capture groups and the
text after the match), `none` when the regex does not match here. -/
def tryMatch (cs : List Char) : Option (List Char × List Char × List Char) :=
  let r1 := cs.dropWhile Char.isWhitespace
  let digits := r1.takeWhile Char.isDigit
  let r2 := r1.dropWhile Char.isDigit
  if digits.isEmpty then none
  else
    let r3 := r2.dropWhile Char.isWhitespace
    let spec := r3.takeWhile (fun c => c ≠ '}')
    match r3.dropWhile (fun c => c ≠ '}') with
    | '}' :: rest => some (digits, spec, rest)
    | _ => none

/-- The scan of `Regex::replace_all` with the pattern above: leftmost
non-overlapping matches, each replaced by `{_unnamed_<digits><spec>}`
(the whitespace consumed by `\s*` is dropped, exactly as in the
replacement closure of the source). Fuel-based; one unit of fuel is spent
per character or per match, so `cs.length` fuel always suffices. -/
def translateAux : Nat → List Char → List Char
  | 0, cs => cs
  | _ + 1, [] => []
  | fuel + 1, c :: rest =>
    if c = '{' then
      match tryMatch rest with
      | some (digits, spec, rest') =>
          "\x7b_unnamed_".data ++ digits ++ spec ++ '}' :: translateAux fuel rest'
      | none => c :: translateAux fuel rest
    else c :: translateAux fuel rest

/-- The canonical (fuel-saturated) list-level rewriter. -/
def trPlaceholders (cs : List Char) : List Char := translateAux cs.length cs

/-- `VariantAttrs::translate_numeric_placeholders`. -/
def translate_numeric_placeholders (fmt : String) : String :=
  ⟨trPlaceholders fmt.data⟩

-- Variant attributes (`VariantAttrs` in the source)

structure VariantAttrs where
  format : Option String
  deriving DecidableEq, Repr

/-- One step of the loop in `VariantAttrs::from_attrs`: only attributes
named `display` with a list payload are inspected, and only the FIRST
element of the list (`list.nested.first()`); a bare string literal or any
name-value entry with a string literal value sets the format (after
placeholder rewriting), every other shape leaves it unchanged. -/
def VariantAttrs.applyAttr (fmt : Option String) (attr : Attribute) :
    Option String :=
  if attr.path = "display" then
    match attr.meta with
    | .metaList _ (first :: _) =>
      match first with
      | .litMeta (.str s) => some (translate_numeric_placeholders s)
      | .metaNameValue _ (.str s) => some (translate_numeric_placeholders s)
      | _ => fmt
    | _ => fmt
  else fmt

/-- `VariantAttrs::from_attrs`. -/
def VariantAttrs.from_attrs (attrs : List Attribute) : VariantAttrs :=
  ⟨attrs.foldl VariantAttrs.applyAttr none⟩

-- Decimal rendering of a field index, modelling the host's formatting of
-- a `usize` in `format!("_unnamed_{i}")` (least-significant digit first
-- into an accumulator, as many digits as needed).

/-- The decimal digit characters, in order. -/
def decDigits : List Char := ['0', '1', '2', '3', '4', '5', '6', '7', '8', '9']

/-- The character for one decimal digit (`'*'` is unreachable for `d < 10`). -/
def decDigitChar (d : Nat) : Char :=
  match d with
  | 0 => '0' | 1 => '1' | 2 => '2' | 3 => '3' | 4 => '4'
  | 5 => '5' | 6 => '6' | 7 => '7' | 8 => '8' | 9 => '9'
  | _ => '*'

/-- Fuel-based digit peeling; `n + 1` fuel always suffices for `n`. -/
def natDecAux : Nat → Nat → List Char → List Char
  | 0, _, acc => acc
  | fuel + 1, n, acc =>
    let acc' := decDigitChar (n % 10) :: acc
    if n / 10 = 0 then acc' else natDecAux fuel (n / 10) acc'

/-- Decimal rendering of a natural number. -/
def natDec (n : Nat) : String := ⟨natDecAux (n + 1) n []⟩

-- Variant shapes and the intermediate representation

/-- The field shape of a `syn::Variant`: named fields carry their
(optional) identifiers, unnamed fields only their multiplicity. -/
inductive Fields where
  | fieldsNamed (names : List (Option String))
  | fieldsUnnamed (fields : List Unit)
  | unit

/-- A `syn::Variant`: identifier, attributes, field shape. -/
structure Variant where
  ident : String
  attrs : List Attribute
  fields : Fields

/-- `VariantInfo` of the source. -/
structure VariantInfo where
  ident : String
  ident_transformed : String
  attrs : VariantAttrs

/-- `NamedVariantIR`. -/
structure NamedVariantIR where
  info : VariantInfo
  fields : List String

/-- `NamedVariantIR::from_fields_named`: keep each named field's
identifier, skipping anonymous ones (`filter_map`). -/
def NamedVariantIR.from_fields_named (names : List (Option String))
    (info : VariantInfo) : NamedVariantIR :=
  ⟨info, names.filterMap id⟩

/-- `UnnamedVariantIR`. -/
structure UnnamedVariantIR where
  info : VariantInfo
  fields : List String

/-- `UnnamedVariantIR::from_fields_unnamed`: synthetic binding names
`_unnamed_<i>` produced by `enumerate().map(...)`. -/
def UnnamedVariantIR.from_fields_unnamed (fs : List Unit)
    (info : VariantInfo) : UnnamedVariantIR :=
  ⟨info, fs.enum.map (fun p => "_unnamed_" ++ natDec p.1)⟩

/-- `UnitVariantIR`. -/
structure UnitVariantIR where
  info : VariantInfo

def UnitVariantIR.new (info : VariantInfo) : UnitVariantIR := ⟨info⟩

/-- The semantics of one generated match arm, keeping the internal
representation distinction of the source: `borrowed` is the
`#ident { .. } => #ident_transformed` arm (a `&'static str`), `owned` is
the `String::from(#ident_transformed)` arm, and `formatArm` is the
`{ let variant = #ident_transformed; format!(#fmt) }` arm together with
the binding names its pattern brings into scope. -/
inductive ArmBody where
  | borrowed (text : String)
  | owned (text : String)
  | formatArm (fmt : String) (variantName : String) (bindings : List String)
  deriving DecidableEq, Repr

/-- `NamedVariantIR::generate`; `none` models the `unreachable!` arm. -/
def NamedVariantIR.generate (self : NamedVariantIR) (any_has_format : Bool) :
    Option ArmBody :=
  match any_has_format, self.info.attrs.format with
  | true, some fmt =>
      some (.formatArm fmt self.info.ident_transformed self.fields)
  | true, none => some (.owned self.info.ident_transformed)
  | false, none => some (.borrowed self.info.ident_transformed)
  | false, some _ => none

/-- `UnnamedVariantIR::generate`; `none` models the `unreachable!` arm. -/
def UnnamedVariantIR.generate (self : UnnamedVariantIR)
    (any_has_format : Bool) : Option ArmBody :=
  match any_has_format, self.info.attrs.format with
  | true, some fmt =>
      some (.formatArm fmt self.info.ident_transformed self.fields)
  | true, none => some (.owned self.info.ident_transformed)
  | false, none => some (.borrowed self.info.ident_transformed)
  | false, some _ => none

/-- `UnitVariantIR::generate`; `none` models the `unreachable!` arm. A unit
pattern binds no fields. -/
def UnitVariantIR.generate (self : UnitVariantIR) (any_has_format : Bool) :
    Option ArmBody :=
  match any_has_format, self.info.attrs.format with
  | true, some fmt => some (.formatArm fmt self.info.ident_transformed [])
  | true, none => some (.owned self.info.ident_transformed)
  | false, none => some (.borrowed self.info.ident_transformed)
  | false, some _ => none

/-- `VariantIR`. -/
inductive VariantIR where
  | named (v : NamedVariantIR)
  | unnamed (v : UnnamedVariantIR)
  | unit (v : UnitVariantIR)

/-- `VariantIR::from_variant`: builds the shared info (case-transformed
identifier, parsed variant attributes) and classifies the field shape. -/
def VariantIR.from_variant (conv : Case → String → String) (variant : Variant)
    (enum_attrs : EnumAttrs) : VariantIR :=
  let info : VariantInfo :=
    { ident := variant.ident
      ident_transformed := enum_attrs.transform_case conv variant.ident
      attrs := VariantAttrs.from_attrs variant.attrs }
  match variant.fields with
  | .fieldsNamed names => .named (NamedVariantIR.from_fields_named names info)
  | .fieldsUnnamed fs => .unnamed (UnnamedVariantIR.from_fields_unnamed fs info)
  | .unit => .unit (UnitVariantIR.new info)

/-- `VariantIR::generate`. -/
def VariantIR.generate (self : VariantIR) (any_has_format : Bool) :
    Option ArmBody :=
  match self with
  | .named v => v.generate any_has_format
  | .unnamed v => v.generate any_has_format
  | .unit v => v.generate any_has_format

/-- The shared `VariantInfo` of a `VariantIR` (the match at the heart of
`VariantIR::has_format` in the source). -/
def VariantIR.infoOf : VariantIR → VariantInfo
  | .named v => v.info
  | .unnamed v => v.info
  | .unit v => v.info

/-- `VariantIR::has_format`. -/
def VariantIR.has_format (self : VariantIR) : Bool :=
  self.infoOf.attrs.format.isSome

-- Rendering semantics of generated arms (the host's `format!` machinery,
-- modelled from its documented behavior: brace-delimited placeholders,
-- `{{`/`}}` escapes, `{name:spec}` renders the argument bound to `name`).

/-- Look a binding up in the format environment; a missing name would be a
host-level compile error, modelled as the empty string. -/
def lookupEnv (env : List (String × String)) (k : String) : String :=
  (env.lookup k).getD ""

/-- Fuel-based scanner for the `format!` mini-language; `cs.length` fuel
always suffices. A lone unmatched `{` or `}` is a host-level compile
error, modelled by copying the remaining text. -/
def evalFormatAux (env : List (String × String)) : Nat → List Char → List Char
  | 0, cs => cs
  | _ + 1, [] => []
  | fuel + 1, c :: rest =>
    if c = '{' then
      if rest.headD ' ' = '{' then '{' :: evalFormatAux env fuel rest.tail
      else
        match rest.dropWhile (fun x => x ≠ '}') with
        | '}' :: r =>
            (lookupEnv env ⟨(rest.takeWhile (fun x => x ≠ '}')).takeWhile
              (fun x => x ≠ ':')⟩).data ++ evalFormatAux env fuel r
        | _ => c :: rest
    else if c = '}' then
      if rest.headD ' ' = '}' then '}' :: evalFormatAux env fuel rest.tail
      else c :: rest
    else c :: evalFormatAux env fuel rest

/-- Evaluate a format string in an environment of rendered bindings. -/
def evalFormat (env : List (String × String)) (fmt : String) : String :=
  ⟨evalFormatAux env fmt.data.length fmt.data⟩

/-- The text produced by one arm for a runtime value whose bound fields
render (in pattern order) to `vals`. The formatted arm evaluates its
format string with `variant` bound to the display text and each pattern
binding bound to the corresponding field's rendered value. -/
def ArmBody.render (vals : List String) : ArmBody → String
  | .borrowed s => s
  | .owned s => s
  | .formatArm fmt variantName bindings =>
      evalFormat (("variant", variantName) :: bindings.zip vals) fmt

/-- Rendering a variant: the text of its generated arm (`none` when arm
generation would hit the `unreachable!` branch). -/
def VariantIR.render (self : VariantIR) (any_has_format : Bool)
    (vals : List String) : Option String :=
  (self.generate any_has_format).map (ArmBody.render vals)

-- The derive entry point (`derive` in the source), up to arm synthesis

/-- The input enum declaration: enum-level attributes and variants. -/
structure EnumInput where
  attrs : List Attribute
  variants : List Variant

/-- The pipeline of `derive`: read enum attributes, build every
`VariantIR`, then compute `any_has_format` as the OR over all variants,
and only then synthesize each arm. -/
def deriveArms (conv : Case → String → String) (e : EnumInput) :
    Except String (List (Option ArmBody)) := do
  let enum_attrs ← EnumAttrs.from_attrs e.attrs
  let intermediate_variants :=
    e.variants.map (fun v => VariantIR.from_variant conv v enum_attrs)
  let any_has_format := intermediate_variants.any VariantIR.has_format
  pure (intermediate_variants.map (fun ir => ir.generate any_has_format))

-- Idempotence analysis of the rewriter (for the implicit algebraic claim):
-- a rewritten segment's spec text is emitted verbatim, so an opening brace
-- inside it is re-examined by a second pass. `specsOkAux` scans a string
-- exactly like the rewriter and checks that no matched spec contains `{`.

def specsOkAux : Nat → List Char → Bool
  | 0, _ => true
  | _ + 1, [] => true
  | fuel + 1, c :: rest =>
    if c = '{' then
      match tryMatch rest with
      | some (_, s, r) => s.all (fun x => x ≠ '{') && specsOkAux fuel r
      | none => specsOkAux fuel rest
    else specsOkAux fuel rest

def specsOk (cs : List Char) : Bool := specsOkAux cs.length cs

/-- No brace-segment matched by the rewriter has a `{` in its spec text. -/
def specs_brace_free (fmt : String) : Bool := specsOk fmt.data

-- Helper constructors for concrete attributes, and the decimal value of a
-- digit string (used to reason about the synthetic binding names).

/-- `#[display("<s>")]`. -/
def displayAttr (s : String) : Attribute :=
  ⟨"display", .metaList "display" [.litMeta (.str s)]⟩

/-- `#[enum_display(case = "<s>")]`. -/
def caseAttr (s : String) : Attribute :=
  ⟨"enum_display", .metaList "enum_display" [.metaNameValue "case" (.str s)]⟩

/-- The string literal set by one `display` attribute, when its first list
element matches one of the two accepted shapes (the raw text, before
placeholder rewriting); `none` otherwise. -/
def firstFormatLit (attr : Attribute) : Option String :=
  if attr.path = "display" then
    match attr.meta with
    | .metaList _ (first :: _) =>
      match first with
      | .litMeta (.str s) => some s
      | .metaNameValue _ (.str s) => some s
      | _ => none
    | _ => none
  else none

/-- The numeric value of a decimal digit string (big-endian). -/
def digitsVal (ds : List Char) : Nat :=
  ds.foldl (fun a c => 10 * a + (c.toNat - 48)) 0

-- Character-class facts used throughout

theorem isDigit_ne_of_concrete {c c' : Char} (h : c.isDigit = true)
    (h' : c'.isDigit = false) : c ≠ c' := by
  intro heq; rw [heq, h'] at h; exact Bool.false_ne_true h

theorem isDigit_isWhitespace_false {c : Char} (h : c.isDigit = true) :
    c.isWhitespace = false := by
  cases hw : c.isWhitespace with
  | false => rfl
  | true =>
    exfalso
    simp only [Char.isWhitespace, Bool.or_eq_true, decide_eq_true_eq] at hw
    obtain ((rfl | rfl) | rfl) | rfl := hw <;> exact absurd h (by decide)

theorem isWhitespace_isDigit_false {c : Char} (h : c.isWhitespace = true) :
    c.isDigit = false := by
  cases hd : c.isDigit with
  | false => rfl
  | true => rw [isDigit_isWhitespace_false hd] at h; exact absurd h (by decide)

theorem isWhitespace_ne_of_concrete {c c' : Char} (h : c.isWhitespace = true)
    (h' : c'.isWhitespace = false) : c ≠ c' := by
  intro heq; rw [heq, h'] at h; exact Bool.false_ne_true h

/-- The head element of a `dropWhile` result falsifies the predicate. -/
theorem dropWhile_head_false {α : Type} {p : α → Bool} {l : List α} {a : α}
    {l' : List α} (h : l.dropWhile p = a :: l') : p a = false := by
  induction l with
  | nil => simp [List.dropWhile] at h
  | cons x xs ih =>
    rw [List.dropWhile_cons] at h
    by_cases hx : p x
    · rw [if_pos hx] at h; exact ih h
    · rw [if_neg hx] at h
      injection h with h1 _
      subst h1
      exact Bool.eq_false_iff.mpr hx

-- Dissecting the regex matcher

/-- Full decomposition of a successful match of `\\s*(\\d+)\\s*([^}]*)\\}`:
the input splits into leading whitespace, the digit capture, inner
whitespace, the spec capture, the closing brace, and the rest. -/
theorem tryMatch_decomp {cs d s r : List Char}
    (h : tryMatch cs = some (d, s, r)) :
    ∃ w1 w2 : List Char,
      cs = w1 ++ d ++ w2 ++ s ++ '}' :: r ∧
      (∀ c ∈ w1, c.isWhitespace = true) ∧
      (∀ c ∈ w2, c.isWhitespace = true) ∧
      d ≠ [] ∧ (∀ c ∈ d, c.isDigit = true) ∧ (∀ c ∈ s, c ≠ '}') := by
  simp only [tryMatch] at h
  split at h
  · exact absurd h (by simp)
  · next hd =>
    split at h
    · next x0 rest0 heq =>
      injection h with h1
      injection h1 with hA h23
      injection h23 with hB hC
      subst hA; subst hB; subst hC
      have e1 : cs = cs.takeWhile Char.isWhitespace
          ++ cs.dropWhile Char.isWhitespace :=
        (List.takeWhile_append_dropWhile Char.isWhitespace cs).symm
      have e2 : cs.dropWhile Char.isWhitespace
          = (cs.dropWhile Char.isWhitespace).takeWhile Char.isDigit
            ++ (cs.dropWhile Char.isWhitespace).dropWhile Char.isDigit :=
        (List.takeWhile_append_dropWhile Char.isDigit _).symm
      have e3 : (cs.dropWhile Char.isWhitespace).dropWhile Char.isDigit
          = ((cs.dropWhile Char.isWhitespace).dropWhile
              Char.isDigit).takeWhile Char.isWhitespace
            ++ ((cs.dropWhile Char.isWhitespace).dropWhile
              Char.isDigit).dropWhile Char.isWhitespace :=
        (List.takeWhile_append_dropWhile Char.isWhitespace _).symm
      have e4 : ((cs.dropWhile Char.isWhitespace).dropWhile
              Char.isDigit).dropWhile Char.isWhitespace
          = (((cs.dropWhile Char.isWhitespace).dropWhile
              Char.isDigit).dropWhile Char.isWhitespace).takeWhile
                (fun c => c ≠ '}')
            ++ '}' :: rest0 := by
        conv_lhs => rw [← List.takeWhile_append_dropWhile
          (fun c => decide (c ≠ '}'))
          (((cs.dropWhile Char.isWhitespace).dropWhile
            Char.isDigit).dropWhile Char.isWhitespace)]
        rw [heq]
      refine ⟨cs.takeWhile Char.isWhitespace,
        ((cs.dropWhile Char.isWhitespace).dropWhile
          Char.isDigit).takeWhile Char.isWhitespace, ?_, ?_, ?_, ?_, ?_, ?_⟩
      · conv_lhs => rw [e1, e2, e3, e4]
        simp [List.append_assoc]
      · exact fun c hc => List.mem_takeWhile_imp hc
      · exact fun c hc => List.mem_takeWhile_imp hc
      · intro hnil
        rw [hnil] at hd
        exact hd rfl
      · exact fun c hc => List.mem_takeWhile_imp hc
      · intro c hc
        have := List.mem_takeWhile_imp hc
        simpa using this
    · exact absurd h (by simp)

/-- A successful match strictly shrinks the input. -/
theorem tryMatch_length {cs d s r : List Char}
    (h : tryMatch cs = some (d, s, r)) : r.length < cs.length := by
  obtain ⟨w1, w2, hcs, -, -, -, -, -⟩ := tryMatch_decomp h
  rw [hcs]; simp; omega

/-- The matcher fails whenever the first character is neither whitespace
nor a digit. -/
theorem tryMatch_none_head {c : Char} {cs : List Char}
    (hws : c.isWhitespace = false) (hdig : c.isDigit = false) :
    tryMatch (c :: cs) = none := by
  simp only [tryMatch]
  rw [List.dropWhile_cons_of_neg (by simp [hws]),
    List.takeWhile_cons_of_neg (by simp [hdig])]
  simp

theorem tryMatch_nil : tryMatch ([] : List Char) = none := by
  simp [tryMatch]

-- Fuel irrelevance and step lemmas for the rewriter

theorem translateAux_fuel :
    ∀ (f1 f2 : Nat) (cs : List Char), cs.length ≤ f1 → cs.length ≤ f2 →
      translateAux f1 cs = translateAux f2 cs := by
  intro f1
  induction f1 with
  | zero =>
    intro f2 cs h1 _
    have : cs = [] := List.length_eq_zero.mp (Nat.le_zero.mp h1)
    subst this
    cases f2 <;> rfl
  | succ f ih =>
    intro f2 cs h1 h2
    cases cs with
    | nil => cases f2 <;> rfl
    | cons c rest =>
      cases f2 with
      | zero => simp at h2
      | succ g =>
        simp only [translateAux]
        by_cases hc : c = '{'
        · rw [if_pos hc, if_pos hc]
          cases htm : tryMatch rest with
          | none =>
            rw [ih g rest (by simpa using h1) (by simpa using h2)]
          | some v =>
            obtain ⟨d, s, r⟩ := v
            have hr := tryMatch_length htm
            simp only [List.length_cons] at h1 h2
            simp only [ih g r (by omega : r.length ≤ f) (by omega : r.length ≤ g)]
        · rw [if_neg hc, if_neg hc,
            ih g rest (by simpa using h1) (by simpa using h2)]

theorem translateAux_eq_trP {fuel : Nat} {cs : List Char}
    (h : cs.length ≤ fuel) : translateAux fuel cs = trPlaceholders cs :=
  translateAux_fuel fuel cs.length cs h le_rfl

theorem trP_nil : trPlaceholders [] = [] := rfl

theorem trP_cons_of_ne {c : Char} (rest : List Char) (h : c ≠ '{') :
    trPlaceholders (c :: rest) = c :: trPlaceholders rest := by
  show translateAux (rest.length + 1) (c :: rest) = _
  simp only [translateAux, if_neg h]
  rfl

theorem trP_cons_match {rest d s r : List Char}
    (h : tryMatch rest = some (d, s, r)) :
    trPlaceholders ('{' :: rest) =
      "\x7b_unnamed_".data ++ d ++ s ++ '}' :: trPlaceholders r := by
  show translateAux (rest.length + 1) ('{' :: rest) = _
  simp only [translateAux, h]
  rw [translateAux_eq_trP (Nat.le_of_lt (tryMatch_length h))]
  simp

theorem trP_cons_nomatch {rest : List Char} (h : tryMatch rest = none) :
    trPlaceholders ('{' :: rest) = '{' :: trPlaceholders rest := by
  show translateAux (rest.length + 1) ('{' :: rest) = _
  simp only [translateAux, if_pos rfl, h]
  rfl

/-- Characters that are not `{` are copied through unchanged. -/
theorem trP_append_of_no_lbrace {p : List Char} (t : List Char)
    (hp : ∀ c ∈ p, c ≠ '{') :
    trPlaceholders (p ++ t) = p ++ trPlaceholders t := by
  induction p with
  | nil => rfl
  | cons a p' ih =>
    rw [List.cons_append, trP_cons_of_ne _ (hp a (List.mem_cons_self a p')),
      ih (fun c hc => hp c (List.mem_cons_of_mem a hc))]
    rfl

/-- A well-formed numeric segment `{<digits><spec>}` is matched in full:
the digit token is captured, the spec (which must not contain `}`, must
not begin with a digit, and — since `\s*` silently eats whitespace — is
required whitespace-free here) is captured verbatim. -/
theorem tryMatch_segment {d s post : List Char} (hd : d ≠ [])
    (hdig : ∀ c ∈ d, c.isDigit = true)
    (hs : ∀ c ∈ s, c ≠ '}' ∧ c.isWhitespace = false)
    (hshead : (s.headD 'x').isDigit = false) :
    tryMatch (d ++ (s ++ ('}' :: post))) = some (d, s, post) := by
  obtain ⟨c0, d', rfl⟩ : ∃ c0 d', d = c0 :: d' := by
    cases d with
    | nil => exact absurd rfl hd
    | cons a l => exact ⟨a, l, rfl⟩
  have hc0 : c0.isDigit = true := hdig c0 (List.mem_cons_self c0 d')
  have hsne : ∀ c ∈ s, c ≠ '}' := fun c hc => (hs c hc).1
  have htk : List.takeWhile Char.isDigit (s ++ ('}' :: post)) = [] := by
    cases s with
    | nil => rw [List.nil_append, List.takeWhile_cons_of_neg (by decide)]
    | cons a s' =>
      simp only [List.headD_cons] at hshead
      rw [List.cons_append, List.takeWhile_cons_of_neg (by simp [hshead])]
  have hdwd : List.dropWhile Char.isDigit (s ++ ('}' :: post))
      = s ++ ('}' :: post) := by
    cases s with
    | nil => rw [List.nil_append, List.dropWhile_cons_of_neg (by decide)]
    | cons a s' =>
      simp only [List.headD_cons] at hshead
      rw [List.cons_append, List.dropWhile_cons_of_neg (by simp [hshead]),
        ← List.cons_append]
  have hdww : List.dropWhile Char.isWhitespace (s ++ ('}' :: post))
      = s ++ ('}' :: post) := by
    cases s with
    | nil => rw [List.nil_append, List.dropWhile_cons_of_neg (by decide)]
    | cons a s' =>
      have := (hs a (List.mem_cons_self a s')).2
      rw [List.cons_append, List.dropWhile_cons_of_neg (by simp [this]),
        ← List.cons_append]
  have hr1 : List.dropWhile Char.isWhitespace
        ((c0 :: d') ++ (s ++ ('}' :: post)))
      = (c0 :: d') ++ (s ++ ('}' :: post)) := by
    rw [List.cons_append,
      List.dropWhile_cons_of_neg (by simp [isDigit_isWhitespace_false hc0]),
      ← List.cons_append]
  have hr2 : List.takeWhile Char.isDigit ((c0 :: d') ++ (s ++ ('}' :: post)))
      = c0 :: d' := by
    rw [List.takeWhile_append_of_pos hdig, htk, List.append_nil]
  have hr3 : List.dropWhile Char.isDigit ((c0 :: d') ++ (s ++ ('}' :: post)))
      = s ++ ('}' :: post) := by
    rw [List.dropWhile_append_of_pos hdig, hdwd]
  have hspec : List.takeWhile (fun c => decide (c ≠ '}'))
        (s ++ ('}' :: post)) = s := by
    rw [List.takeWhile_append_of_pos (fun c hc => by simpa using hsne c hc),
      List.takeWhile_cons_of_neg (by simp), List.append_nil]
  have hdrop : List.dropWhile (fun c => decide (c ≠ '}'))
        (s ++ ('}' :: post)) = '}' :: post := by
    rw [List.dropWhile_append_of_pos (fun c hc => by simpa using hsne c hc),
      List.dropWhile_cons_of_neg (by simp)]
  simp only [tryMatch]
  rw [hr1, hr2, hr3, hdww, hdrop, hspec]
  simp

/-- A brace segment whose first token (after `\s*`) is not a digit is not
matched by the regex. -/
theorem tryMatch_named_none {body post : List Char}
    (hhead : ((body.dropWhile Char.isWhitespace).headD '}').isDigit
      = false) :
    tryMatch (body ++ ('}' :: post)) = none := by
  simp only [tryMatch]
  rw [List.dropWhile_append]
  by_cases hb : (body.dropWhile Char.isWhitespace).isEmpty
  · rw [if_pos hb, List.dropWhile_cons_of_neg (by decide),
      List.takeWhile_cons_of_neg (by decide)]
    simp
  · rw [if_neg hb]
    obtain ⟨b0, bs, hbs⟩ : ∃ b0 bs,
        body.dropWhile Char.isWhitespace = b0 :: bs := by
      cases hh : body.dropWhile Char.isWhitespace with
      | nil => rw [hh] at hb; exact absurd rfl hb
      | cons x xs => exact ⟨x, xs, rfl⟩
    rw [hbs] at hhead
    simp only [List.headD_cons] at hhead
    rw [hbs, List.cons_append, List.takeWhile_cons_of_neg (by simp [hhead])]
    simp

theorem data_translate (fmt : String) :
    (translate_numeric_placeholders fmt).data = trPlaceholders fmt.data := rfl

/-- A numeric segment with explicit whitespace runs, exactly as the regex
sees it: `\\s*` eats `w1` and `w2`, the digit token `d` is captured
maximally, and the spec `s` (which cannot contain `}` and whose first
character — if any — is neither a digit nor whitespace, marking where
`\\d+\\s*` stops) is captured verbatim; interior whitespace in `s` is
allowed and preserved. -/
theorem tryMatch_segment_ws {w1 d w2 s post : List Char}
    (hw1 : ∀ c ∈ w1, c.isWhitespace = true)
    (hd : d ≠ []) (hdig : ∀ c ∈ d, c.isDigit = true)
    (hw2 : ∀ c ∈ w2, c.isWhitespace = true)
    (hs : ∀ c ∈ s, c ≠ '}')
    (hsd : (s.headD 'x').isDigit = false)
    (hsw : (s.headD 'x').isWhitespace = false) :
    tryMatch (w1 ++ (d ++ (w2 ++ (s ++ ('}' :: post)))))
      = some (d, s, post) := by
  obtain ⟨c0, d', rfl⟩ : ∃ c0 d', d = c0 :: d' := by
    cases d with
    | nil => exact absurd rfl hd
    | cons a l => exact ⟨a, l, rfl⟩
  have hc0 : c0.isDigit = true := hdig c0 (List.mem_cons_self c0 d')
  have htkX : List.takeWhile Char.isDigit (w2 ++ (s ++ ('}' :: post)))
      = [] := by
    cases w2 with
    | cons b w2' =>
      rw [List.cons_append, List.takeWhile_cons_of_neg (by
        simp [isWhitespace_isDigit_false
          (hw2 b (List.mem_cons_self b w2'))])]
    | nil =>
      rw [List.nil_append]
      cases s with
      | nil => rw [List.nil_append, List.takeWhile_cons_of_neg (by decide)]
      | cons a s' =>
        simp only [List.headD_cons] at hsd
        rw [List.cons_append, List.takeWhile_cons_of_neg (by simp [hsd])]
  have hdwX : List.dropWhile Char.isDigit (w2 ++ (s ++ ('}' :: post)))
      = w2 ++ (s ++ ('}' :: post)) := by
    cases w2 with
    | cons b w2' =>
      rw [List.cons_append, List.dropWhile_cons_of_neg (by
        simp [isWhitespace_isDigit_false
          (hw2 b (List.mem_cons_self b w2'))]),
        ← List.cons_append]
    | nil =>
      rw [List.nil_append]
      cases s with
      | nil => rw [List.nil_append, List.dropWhile_cons_of_neg (by decide)]
      | cons a s' =>
        simp only [List.headD_cons] at hsd
        rw [List.cons_append, List.dropWhile_cons_of_neg (by simp [hsd]),
          ← List.cons_append]
  have hr1 : List.dropWhile Char.isWhitespace
        (w1 ++ ((c0 :: d') ++ (w2 ++ (s ++ ('}' :: post)))))
      = (c0 :: d') ++ (w2 ++ (s ++ ('}' :: post))) := by
    rw [List.dropWhile_append_of_pos hw1, List.cons_append,
      List.dropWhile_cons_of_neg (by simp [isDigit_isWhitespace_false hc0]),
      ← List.cons_append]
  have hr2 : List.takeWhile Char.isDigit
        ((c0 :: d') ++ (w2 ++ (s ++ ('}' :: post)))) = c0 :: d' := by
    rw [List.takeWhile_append_of_pos hdig, htkX, List.append_nil]
  have hr3 : List.dropWhile Char.isDigit
        ((c0 :: d') ++ (w2 ++ (s ++ ('}' :: post))))
      = w2 ++ (s ++ ('}' :: post)) := by
    rw [List.dropWhile_append_of_pos hdig, hdwX]
  have hr4 : List.dropWhile Char.isWhitespace (w2 ++ (s ++ ('}' :: post)))
      = s ++ ('}' :: post) := by
    rw [List.dropWhile_append_of_pos hw2]
    cases s with
    | nil => rw [List.nil_append, List.dropWhile_cons_of_neg (by decide)]
    | cons a s' =>
      simp only [List.headD_cons] at hsw
      rw [List.cons_append, List.dropWhile_cons_of_neg (by simp [hsw]),
        ← List.cons_append]
  have hspec : List.takeWhile (fun c => decide (c ≠ '}'))
        (s ++ ('}' :: post)) = s := by
    rw [List.takeWhile_append_of_pos (fun c hc => by simp [hs c hc]),
      List.takeWhile_cons_of_neg (by simp), List.append_nil]
  have hdrop : List.dropWhile (fun c => decide (c ≠ '}'))
        (s ++ ('}' :: post)) = '}' :: post := by
    rw [List.dropWhile_append_of_pos (fun c hc => by simp [hs c hc]),
      List.dropWhile_cons_of_neg (by simp)]
  simp only [tryMatch]
  rw [hr1, hr2, hr3, hr4, hdrop, hspec]
  simp

/-- C5 counterexample: the trailing text after the digit token is NOT
always preserved verbatim. `\\s*` between `(\\d+)` and `([^}]*)` silently
eats whitespace, so `{0 :x}` is rewritten to `{_unnamed_0:x}`, not to the
verbatim `{_unnamed_0 :x}`. -/
theorem enum_display_c5_counterexample :
    translate_numeric_placeholders "\x7b0 :x\x7d"
        = "\x7b_unnamed_0:x\x7d" ∧
      translate_numeric_placeholders "\x7b0 :x\x7d"
        ≠ "\x7b_unnamed_0 :x\x7d" :=
  ⟨by decide, by decide⟩

/-- C5 (amended): the rewriter rewrites every brace-delimited segment
whose first token is a decimal integer — of shape
`{<ws1><digits><ws2><spec>}`, where either whitespace run may be empty,
the digit token is maximal, and the spec contains no `}` and begins (when
nonempty) with a character that is neither a digit nor whitespace — to
`{_unnamed_<digits><spec>}`: the two whitespace runs are dropped by
`\\s*`, and the spec, which may contain interior whitespace, is preserved
verbatim after the rewritten index; every brace segment whose first
non-blank character is not a digit, including the literal `{variant}`,
is left unchanged. -/
theorem enum_display_c5_amended_rewriter :
    (∀ pre w1 d w2 s post : String,
      (∀ c ∈ pre.data, c ≠ '{') →
      (∀ c ∈ w1.data, c.isWhitespace = true) →
      d.data ≠ [] →
      (∀ c ∈ d.data, c.isDigit = true) →
      (∀ c ∈ w2.data, c.isWhitespace = true) →
      (∀ c ∈ s.data, c ≠ '}') →
      (s.data.headD 'x').isDigit = false →
      (s.data.headD 'x').isWhitespace = false →
      translate_numeric_placeholders
          (pre ++ "\x7b" ++ w1 ++ d ++ w2 ++ s ++ "\x7d" ++ post)
        = pre ++ "\x7b_unnamed_" ++ d ++ s ++ "\x7d"
          ++ translate_numeric_placeholders post) ∧
    (∀ body post : String,
      (∀ c ∈ body.data, c ≠ '{' ∧ c ≠ '}') →
      ((body.data.dropWhile Char.isWhitespace).headD '}').isDigit
        = false →
      translate_numeric_placeholders ("\x7b" ++ body ++ "\x7d" ++ post)
        = "\x7b" ++ body ++ "\x7d"
          ++ translate_numeric_placeholders post) := by
  constructor
  · intro pre w1 d w2 s post hpre hw1 hd hdig hw2 hs hsd hsw
    apply String.ext
    have h1 : ("\x7b" : String).data = ['{'] := rfl
    have h2 : ("\x7d" : String).data = ['}'] := rfl
    simp only [String.data_append, data_translate, h1, h2,
      List.append_assoc, List.cons_append, List.nil_append]
    rw [trP_append_of_no_lbrace
        ('{' :: (w1.data ++ (d.data ++ (w2.data
          ++ (s.data ++ ('}' :: post.data)))))) hpre,
      trP_cons_match (tryMatch_segment_ws hw1 hd hdig hw2 hs hsd hsw)]
    simp [List.append_assoc]
  · intro body post hbody hhead
    apply String.ext
    have h1 : ("\x7b" : String).data = ['{'] := rfl
    have h2 : ("\x7d" : String).data = ['}'] := rfl
    simp only [String.data_append, data_translate, h1, h2,
      List.append_assoc, List.cons_append, List.nil_append]
    rw [trP_cons_nomatch (tryMatch_named_none hhead),
      trP_append_of_no_lbrace ('}' :: post.data)
        (fun c hc => (hbody c hc).1),
      trP_cons_of_ne _ (by decide)]

theorem enum_display_c5_amended_witness :
    (translate_numeric_placeholders
        ("" ++ "\x7b" ++ " " ++ "0" ++ " " ++ ":x" ++ "\x7d" ++ "")
      = "" ++ "\x7b_unnamed_" ++ "0" ++ ":x" ++ "\x7d"
        ++ translate_numeric_placeholders "") ∧
    (translate_numeric_placeholders
        ("a" ++ "\x7b" ++ "" ++ "0" ++ "" ++ ": ^10" ++ "\x7d" ++ "b")
      = "a" ++ "\x7b_unnamed_" ++ "0" ++ ": ^10" ++ "\x7d"
        ++ translate_numeric_placeholders "b") ∧
    (translate_numeric_placeholders ("\x7b" ++ "variant" ++ "\x7d" ++ "")
      = "\x7b" ++ "variant" ++ "\x7d"
        ++ translate_numeric_placeholders "") :=
  ⟨enum_display_c5_amended_rewriter.1 "" " " "0" " " ":x" ""
      (by decide) (by decide) (by decide) (by decide) (by decide)
      (by decide) (by decide) (by decide),
    enum_display_c5_amended_rewriter.1 "a" "" "0" "" ": ^10" "b"
      (by decide) (by decide) (by decide) (by decide) (by decide)
      (by decide) (by decide) (by decide),
    enum_display_c5_amended_rewriter.2 "variant" "" (by decide)
      (by decide)⟩

theorem specsOkAux_fuel :
    ∀ (f1 f2 : Nat) (cs : List Char), cs.length ≤ f1 → cs.length ≤ f2 →
      specsOkAux f1 cs = specsOkAux f2 cs := by
  intro f1
  induction f1 with
  | zero =>
    intro f2 cs h1 _
    have : cs = [] := List.length_eq_zero.mp (Nat.le_zero.mp h1)
    subst this
    cases f2 <;> rfl
  | succ f ih =>
    intro f2 cs h1 h2
    cases cs with
    | nil => cases f2 <;> rfl
    | cons c rest =>
      cases f2 with
      | zero => simp at h2
      | succ g =>
        simp only [specsOkAux]
        by_cases hc : c = '{'
        · rw [if_pos hc, if_pos hc]
          cases htm : tryMatch rest with
          | none =>
            rw [ih g rest (by simpa using h1) (by simpa using h2)]
          | some v =>
            obtain ⟨d, s, r⟩ := v
            have hr := tryMatch_length htm
            simp only [List.length_cons] at h1 h2
            simp only [ih g r (by omega : r.length ≤ f)
              (by omega : r.length ≤ g)]
        · rw [if_neg hc, if_neg hc,
            ih g rest (by simpa using h1) (by simpa using h2)]

theorem specsOkAux_eq {fuel : Nat} {cs : List Char}
    (h : cs.length ≤ fuel) : specsOkAux fuel cs = specsOk cs :=
  specsOkAux_fuel fuel cs.length cs h le_rfl

theorem specsOk_cons_of_ne {c : Char} (rest : List Char) (h : c ≠ '{') :
    specsOk (c :: rest) = specsOk rest := by
  show specsOkAux (rest.length + 1) (c :: rest) = _
  simp only [specsOkAux, if_neg h]
  rfl

theorem specsOk_cons_match {rest d s r : List Char}
    (h : tryMatch rest = some (d, s, r)) :
    specsOk ('{' :: rest) = (s.all (fun x => x ≠ '{') && specsOk r) := by
  show specsOkAux (rest.length + 1) ('{' :: rest) = _
  simp only [specsOkAux, h]
  rw [specsOkAux_eq (Nat.le_of_lt (tryMatch_length h))]
  simp

theorem specsOk_cons_nomatch {rest : List Char} (h : tryMatch rest = none) :
    specsOk ('{' :: rest) = specsOk rest := by
  show specsOkAux (rest.length + 1) ('{' :: rest) = _
  simp only [specsOkAux, h]
  rfl

theorem tryMatch_some_rbrace_mem {cs d s r : List Char}
    (h : tryMatch cs = some (d, s, r)) : '}' ∈ cs := by
  obtain ⟨w1, w2, hcs, -, -, -, -, -⟩ := tryMatch_decomp h
  rw [hcs]; simp

/-- Without a closing brace the rewriter copies everything. -/
theorem trP_of_no_rbrace {cs : List Char} (h : ∀ c ∈ cs, c ≠ '}') :
    trPlaceholders cs = cs := by
  induction cs with
  | nil => rfl
  | cons c rest ih =>
    have hrest : ∀ x ∈ rest, x ≠ '}' :=
      fun x hx => h x (List.mem_cons_of_mem _ hx)
    by_cases hc : c = '{'
    · subst hc
      have hnone : tryMatch rest = none := by
        cases htm : tryMatch rest with
        | none => rfl
        | some v =>
          obtain ⟨d, s, r⟩ := v
          exact absurd rfl (hrest '}' (tryMatch_some_rbrace_mem htm))
      rw [trP_cons_nomatch hnone, ih hrest]
    · rw [trP_cons_of_ne _ hc, ih hrest]

/-- Without an opening brace the rewriter copies everything. -/
theorem trP_of_no_lbrace {cs : List Char} (h : ∀ c ∈ cs, c ≠ '{') :
    trPlaceholders cs = cs := by
  have := trP_append_of_no_lbrace ([] : List Char) h
  rw [List.append_nil, trP_nil, List.append_nil] at this
  exact this

/-- The output for an opening brace always starts with an opening brace. -/
theorem trP_lbrace_head (rest : List Char) :
    ∃ t, trPlaceholders ('{' :: rest) = '{' :: t := by
  cases htm : tryMatch rest with
  | none => exact ⟨trPlaceholders rest, trP_cons_nomatch htm⟩
  | some v =>
    obtain ⟨d, s, r⟩ := v
    refine ⟨"_unnamed_".data ++ d ++ s ++ '}' :: trPlaceholders r, ?_⟩
    rw [trP_cons_match htm]
    rfl

/-- The matcher fails on an all-whitespace prefix followed by a character
that is neither whitespace nor a digit. -/
theorem tryMatch_none_ws_head {w1 : List Char} {c : Char} {t : List Char}
    (hws : ∀ x ∈ w1, x.isWhitespace = true)
    (hcw : c.isWhitespace = false) (hcd : c.isDigit = false) :
    tryMatch (w1 ++ c :: t) = none := by
  simp only [tryMatch]
  rw [List.dropWhile_append_of_pos hws,
    List.dropWhile_cons_of_neg (by simp [hcw]),
    List.takeWhile_cons_of_neg (by simp [hcd])]
  simp

/-- The matcher fails on an all-whitespace input. -/
theorem tryMatch_none_all_ws {w1 : List Char}
    (hws : ∀ x ∈ w1, x.isWhitespace = true) : tryMatch w1 = none := by
  simp only [tryMatch]
  rw [List.dropWhile_eq_nil_iff.mpr (fun x hx => by simp [hws x hx])]
  simp

/-- A failed match at a position stays failed after the rewriter has
processed the text at that position. -/
theorem tryMatch_none_trP {cs : List Char} (h : tryMatch cs = none) :
    tryMatch (trPlaceholders cs) = none := by
  by_cases hdg : ((cs.dropWhile Char.isWhitespace).takeWhile
      Char.isDigit).isEmpty
  · -- the digit token is empty: the head after whitespace is not a digit
    have hw1 : ∀ x ∈ cs.takeWhile Char.isWhitespace, x.isWhitespace = true :=
      fun x hx => List.mem_takeWhile_imp hx
    have hsplit : cs = cs.takeWhile Char.isWhitespace
        ++ cs.dropWhile Char.isWhitespace :=
      (List.takeWhile_append_dropWhile Char.isWhitespace cs).symm
    cases ht : cs.dropWhile Char.isWhitespace with
    | nil =>
      have hcsws : ∀ x ∈ cs, x.isWhitespace = true := by
        intro x hx
        rw [hsplit, ht, List.append_nil] at hx
        exact hw1 x hx
      rw [trP_of_no_lbrace (fun c hc =>
        isWhitespace_ne_of_concrete (hcsws c hc) (by decide))]
      exact tryMatch_none_all_ws hcsws
    | cons h0 t' =>
      have hh0w : h0.isWhitespace = false := dropWhile_head_false ht
      have hh0d : h0.isDigit = false := by
        rw [ht] at hdg
        cases hb : h0.isDigit with
        | false => rfl
        | true =>
          rw [List.takeWhile_cons_of_pos hb] at hdg
          exact absurd hdg (by simp)
      have htr : trPlaceholders cs = cs.takeWhile Char.isWhitespace
          ++ trPlaceholders (h0 :: t') := by
        conv_lhs => rw [hsplit, ht]
        exact trP_append_of_no_lbrace _ (fun c hc =>
          isWhitespace_ne_of_concrete (hw1 c hc) (by decide))
      by_cases hh0 : h0 = '{'
      · subst hh0
        obtain ⟨u, hu⟩ := trP_lbrace_head t'
        rw [htr, hu]
        exact tryMatch_none_ws_head hw1 (by decide) (by decide)
      · rw [htr, trP_cons_of_ne _ hh0]
        exact tryMatch_none_ws_head hw1 hh0w hh0d
  · -- the digit token is nonempty: the match failed for lack of a closing
    -- brace, so the input has none and is copied verbatim
    have hnb : ∀ c ∈ cs, c ≠ '}' := by
      simp only [tryMatch] at h
      rw [if_neg hdg] at h
      cases hdw : List.dropWhile (fun c => decide (c ≠ '}'))
          (((cs.dropWhile Char.isWhitespace).dropWhile
            Char.isDigit).dropWhile Char.isWhitespace) with
      | cons a tail =>
        have ha : a = '}' := by
          have := dropWhile_head_false hdw
          simpa using this
        subst ha
        rw [hdw] at h
        exact absurd h (by simp)
      | nil =>
        have hr3 : ∀ x ∈ ((cs.dropWhile Char.isWhitespace).dropWhile
            Char.isDigit).dropWhile Char.isWhitespace, x ≠ '}' := by
          intro x hx
          have := List.dropWhile_eq_nil_iff.mp hdw x hx
          simpa using this
        intro c hc
        have hc1 : c ∈ cs.takeWhile Char.isWhitespace
            ∨ c ∈ cs.dropWhile Char.isWhitespace := by
          rw [← List.mem_append, List.takeWhile_append_dropWhile]
          exact hc
        rcases hc1 with hw | hc2
        · exact isWhitespace_ne_of_concrete (List.mem_takeWhile_imp hw)
            (by decide)
        · have hc3 : c ∈ (cs.dropWhile Char.isWhitespace).takeWhile
              Char.isDigit
              ∨ c ∈ (cs.dropWhile Char.isWhitespace).dropWhile
                Char.isDigit := by
            rw [← List.mem_append, List.takeWhile_append_dropWhile]
            exact hc2
          rcases hc3 with hdd | hc4
          · exact isDigit_ne_of_concrete (List.mem_takeWhile_imp hdd)
              (by decide)
          · have hc5 : c ∈ ((cs.dropWhile Char.isWhitespace).dropWhile
                Char.isDigit).takeWhile Char.isWhitespace
                ∨ c ∈ ((cs.dropWhile Char.isWhitespace).dropWhile
                  Char.isDigit).dropWhile Char.isWhitespace := by
              rw [← List.mem_append, List.takeWhile_append_dropWhile]
              exact hc4
            rcases hc5 with hww | hc6
            · exact isWhitespace_ne_of_concrete
                (List.mem_takeWhile_imp hww) (by decide)
            · exact hr3 c hc6
    rw [trP_of_no_rbrace hnb]
    exact h

/-- Idempotence of the rewriter on inputs whose matched specs contain no
opening brace. -/
theorem trP_idem {cs : List Char} (hok : specsOk cs = true) :
    trPlaceholders (trPlaceholders cs) = trPlaceholders cs := by
  suffices H : ∀ n, ∀ cs : List Char, cs.length ≤ n → specsOk cs = true →
      trPlaceholders (trPlaceholders cs) = trPlaceholders cs from
    H cs.length cs le_rfl hok
  intro n
  induction n using Nat.strong_induction_on with
  | _ n ih =>
    intro cs hlen hok
    cases cs with
    | nil => rfl
    | cons c rest =>
      have hrestlen : rest.length < n := by
        simp only [List.length_cons] at hlen; omega
      by_cases hc : c = '{'
      · subst hc
        cases htm : tryMatch rest with
        | none =>
          have hok' : specsOk rest = true := by
            rwa [specsOk_cons_nomatch htm] at hok
          rw [trP_cons_nomatch htm,
            trP_cons_nomatch (tryMatch_none_trP htm),
            ih rest.length hrestlen rest le_rfl hok']
        | some v =>
          obtain ⟨d, s, r⟩ := v
          rw [specsOk_cons_match htm, Bool.and_eq_true] at hok
          obtain ⟨hsall, hokr⟩ := hok
          have hs_ne : ∀ x ∈ s, x ≠ '{' := by
            intro x hx
            have := List.all_eq_true.mp hsall x hx
            simpa using this
          obtain ⟨w1, w2, -, -, -, -, hdig, -⟩ := tryMatch_decomp htm
          have hrlen : r.length < rest.length := tryMatch_length htm
          rw [trP_cons_match htm]
          have hform : "\x7b_unnamed_".data ++ d ++ s ++ '}' :: trPlaceholders r
              = '{' :: ("_unnamed_".data
                ++ (d ++ (s ++ ('}' :: trPlaceholders r)))) := by
            simp [List.append_assoc]
          rw [hform]
          have h2 : tryMatch ("_unnamed_".data
              ++ (d ++ (s ++ ('}' :: trPlaceholders r)))) = none :=
            tryMatch_none_head (c := '_') (by decide) (by decide)
          rw [trP_cons_nomatch h2,
            trP_append_of_no_lbrace _ (by decide),
            trP_append_of_no_lbrace _ (fun x hx =>
              isDigit_ne_of_concrete (hdig x hx) (by decide)),
            trP_append_of_no_lbrace _ hs_ne,
            trP_cons_of_ne _ (by decide),
            ih r.length (by omega) r le_rfl hokr]
      · have hok' : specsOk rest = true := by
          rwa [specsOk_cons_of_ne rest hc] at hok
        rw [trP_cons_of_ne _ hc, trP_cons_of_ne _ hc,
          ih rest.length hrestlen rest le_rfl hok']

/-- C9 counterexample: the rewriter is NOT idempotent. In `"\x7b0a\x7b1\x7d"` the
first pass matches the whole string (`spec = "a{1"`) and emits
`"\x7b_unnamed_0a\x7b1\x7d"`; a second pass then matches the `{1}` that reappeared
inside the emitted spec text. -/
theorem enum_display_c9_counterexample :
    translate_numeric_placeholders (translate_numeric_placeholders "\x7b0a\x7b1\x7d")
        ≠ translate_numeric_placeholders "\x7b0a\x7b1\x7d" ∧
      translate_numeric_placeholders "\x7b0a\x7b1\x7d" = "\x7b_unnamed_0a\x7b1\x7d" ∧
      translate_numeric_placeholders (translate_numeric_placeholders "\x7b0a\x7b1\x7d")
        = "\x7b_unnamed_0a\x7b_unnamed_1\x7d" := by
  refine ⟨?_, by decide, by decide⟩
  decide

/-- C9 (amended): the rewriter is idempotent on every format string in
which no matched segment's spec text contains an opening brace (rewritten
segments begin with an underscore, not a digit, so they are never
rewritten again; only a `{` inside a spec can be re-matched). -/
theorem enum_display_c9_amended_idempotent (fmt : String)
    (h : specs_brace_free fmt = true) :
    translate_numeric_placeholders (translate_numeric_placeholders fmt)
      = translate_numeric_placeholders fmt := by
  apply String.ext
  simp only [data_translate]
  exact trP_idem h

theorem enum_display_c9_witness :
    specs_brace_free "{0} and {name}" = true ∧
      translate_numeric_placeholders
          (translate_numeric_placeholders "{0} and {name}")
        = translate_numeric_placeholders "{0} and {name}" :=
  ⟨by decide,
    enum_display_c9_amended_idempotent "{0} and {name}" (by decide)⟩

-- Arm generation facts shared by the rendering claims

theorem format_eq_none_of_not_has {ir : VariantIR}
    (h : ir.has_format = false) : ir.infoOf.attrs.format = none := by
  cases hfo : ir.infoOf.attrs.format with
  | none => rfl
  | some f =>
    rw [VariantIR.has_format, hfo] at h
    exact absurd h (by simp)

theorem generate_isSome_of_has_format {ir : VariantIR}
    (h : ir.has_format = true) : (ir.generate true).isSome = true := by
  rw [VariantIR.has_format, Option.isSome_iff_exists] at h
  obtain ⟨f, hf⟩ := h
  cases ir with
  | named v =>
    simp only [VariantIR.infoOf] at hf
    simp [VariantIR.generate, NamedVariantIR.generate, hf]
  | unnamed v =>
    simp only [VariantIR.infoOf] at hf
    simp [VariantIR.generate, UnnamedVariantIR.generate, hf]
  | unit v =>
    simp only [VariantIR.infoOf] at hf
    simp [VariantIR.generate, UnitVariantIR.generate, hf]

theorem generate_isSome_of_no_format {ir : VariantIR} (b : Bool)
    (h : ir.has_format = false) : (ir.generate b).isSome = true := by
  have hf := format_eq_none_of_not_has h
  cases ir with
  | named v =>
    simp only [VariantIR.infoOf] at hf
    cases b <;> simp [VariantIR.generate, NamedVariantIR.generate, hf]
  | unnamed v =>
    simp only [VariantIR.infoOf] at hf
    cases b <;> simp [VariantIR.generate, UnnamedVariantIR.generate, hf]
  | unit v =>
    simp only [VariantIR.infoOf] at hf
    cases b <;> simp [VariantIR.generate, UnitVariantIR.generate, hf]

/-- A format-free variant's arm is the (borrowed or owned) display text. -/
theorem render_of_no_format {ir : VariantIR} (b : Bool) (vals : List String)
    (h : ir.has_format = false) :
    ir.render b vals = some ir.infoOf.ident_transformed := by
  have hf := format_eq_none_of_not_has h
  cases ir with
  | named v =>
    simp only [VariantIR.infoOf] at hf ⊢
    cases b <;> simp [VariantIR.render, VariantIR.generate,
      NamedVariantIR.generate, hf, ArmBody.render]
  | unnamed v =>
    simp only [VariantIR.infoOf] at hf ⊢
    cases b <;> simp [VariantIR.render, VariantIR.generate,
      UnnamedVariantIR.generate, hf, ArmBody.render]
  | unit v =>
    simp only [VariantIR.infoOf] at hf ⊢
    cases b <;> simp [VariantIR.render, VariantIR.generate,
      UnitVariantIR.generate, hf, ArmBody.render]

/-- The classifier always installs the case-transformed identifier as the
display text, and the parsed variant attributes, whatever the shape. -/
theorem from_variant_infoOf (conv : Case → String → String) (v : Variant)
    (ea : EnumAttrs) :
    (VariantIR.from_variant conv v ea).infoOf
      = ⟨v.ident, ea.transform_case conv v.ident,
          VariantAttrs.from_attrs v.attrs⟩ := by
  cases hvf : v.fields <;>
    simp [VariantIR.from_variant, hvf, VariantIR.infoOf,
      NamedVariantIR.from_fields_named,
      UnnamedVariantIR.from_fields_unnamed, UnitVariantIR.new]

/-- C1: a variant carrying no custom format renders to exactly its
identifier when the enum has no case selector, and to
`conv C identifier` (the external case conversion) when the enum-level
selector `C` is present — independently of the enum-wide mode and of the
runtime field values. -/
theorem enum_display_c1_default_text (conv : Case → String → String)
    (ea : EnumAttrs) (v : Variant) (any_has_format : Bool)
    (vals : List String)
    (hfmt : (VariantAttrs.from_attrs v.attrs).format = none) :
    (ea.case_transform = none →
      (VariantIR.from_variant conv v ea).render any_has_format vals
        = some v.ident) ∧
    (∀ C, ea.case_transform = some C →
      (VariantIR.from_variant conv v ea).render any_has_format vals
        = some (conv C v.ident)) := by
  have hnf : (VariantIR.from_variant conv v ea).has_format = false := by
    rw [VariantIR.has_format, from_variant_infoOf, hfmt]
    rfl
  have key : (VariantIR.from_variant conv v ea).render any_has_format vals
      = some (ea.transform_case conv v.ident) := by
    rw [render_of_no_format any_has_format vals hnf, from_variant_infoOf]
  constructor
  · intro h0
    rw [key]
    simp [EnumAttrs.transform_case, h0]
  · intro C hC
    rw [key]
    simp [EnumAttrs.transform_case, hC]

theorem enum_display_c1_witness :
    ((VariantIR.from_variant (fun _ s => "<" ++ s ++ ">")
        ⟨"Red", [], .unit⟩ ⟨none⟩).render false []
      = some "Red") ∧
    ((VariantIR.from_variant (fun _ s => "<" ++ s ++ ">")
        ⟨"Red", [], .unit⟩ ⟨some Case.kebab⟩).render true ["junk"]
      = some ((fun _ s => "<" ++ s ++ ">") Case.kebab "Red")) :=
  ⟨(enum_display_c1_default_text (fun _ s => "<" ++ s ++ ">") ⟨none⟩
      ⟨"Red", [], .unit⟩ false [] rfl).1 rfl,
    (enum_display_c1_default_text (fun _ s => "<" ++ s ++ ">")
      ⟨some Case.kebab⟩ ⟨"Red", [], .unit⟩ true ["junk"] rfl).2
      Case.kebab rfl⟩

/-- C2: for a variant without a custom format the owned-string arm
(`any_has_format = true`, `String::from(...)`) and the borrowed-string arm
(`any_has_format = false`, a `&'static str`) produce identical rendered
text, and both arms exist. -/
theorem enum_display_c2_mode_equivalence (ir : VariantIR)
    (vals : List String) (h : ir.has_format = false) :
    ir.render true vals = ir.render false vals ∧
      (ir.render true vals).isSome = true := by
  constructor
  · rw [render_of_no_format true vals h, render_of_no_format false vals h]
  · rw [render_of_no_format true vals h]
    rfl

theorem enum_display_c2_witness :
    ((VariantIR.named ⟨⟨"Address", "Address", ⟨none⟩⟩,
        ["street", "zip"]⟩).render true ["a", "b"]
      = (VariantIR.named ⟨⟨"Address", "Address", ⟨none⟩⟩,
        ["street", "zip"]⟩).render false ["a", "b"]) ∧
    ((VariantIR.named ⟨⟨"Address", "Address", ⟨none⟩⟩,
        ["street", "zip"]⟩).render true ["a", "b"]).isSome = true :=
  enum_display_c2_mode_equivalence
    (VariantIR.named ⟨⟨"Address", "Address", ⟨none⟩⟩, ["street", "zip"]⟩)
    ["a", "b"] rfl

/-- C10: a format-free variant's rendered text does not depend on the
runtime field values: the generated arm wildcards its fields and returns
only the case-transformed variant name. -/
theorem enum_display_c10_value_independence (ir : VariantIR)
    (any_has_format : Bool) (vals vals' : List String)
    (h : ir.has_format = false) :
    ir.render any_has_format vals = ir.render any_has_format vals' ∧
      (ir.render any_has_format vals).isSome = true := by
  constructor
  · rw [render_of_no_format any_has_format vals h,
      render_of_no_format any_has_format vals' h]
  · rw [render_of_no_format any_has_format vals h]
    rfl

theorem enum_display_c10_witness :
    ((VariantIR.unnamed ⟨⟨"DateOfBirth", "date-of-birth", ⟨none⟩⟩,
        ["_unnamed_0", "_unnamed_1", "_unnamed_2"]⟩).render true
          ["1", "2", "1999"]
      = (VariantIR.unnamed ⟨⟨"DateOfBirth", "date-of-birth", ⟨none⟩⟩,
        ["_unnamed_0", "_unnamed_1", "_unnamed_2"]⟩).render true
          ["7", "7", "7777"]) ∧
    ((VariantIR.unnamed ⟨⟨"DateOfBirth", "date-of-birth", ⟨none⟩⟩,
        ["_unnamed_0", "_unnamed_1", "_unnamed_2"]⟩).render true
          ["1", "2", "1999"]).isSome = true :=
  enum_display_c10_value_independence
    (VariantIR.unnamed ⟨⟨"DateOfBirth", "date-of-birth", ⟨none⟩⟩,
      ["_unnamed_0", "_unnamed_1", "_unnamed_2"]⟩)
    true ["1", "2", "1999"] ["7", "7", "7777"] rfl

/-- C3: with `any_has_format` computed as the OR of `has_format` over all
variant IRs — after every IR exists and before any arm is synthesized, as
`deriveArms` does — no arm synthesis ever hits the `unreachable!`
branch. -/
theorem enum_display_c3_unreachable_safe (conv : Case → String → String)
    (e : EnumInput) (arms : List (Option ArmBody))
    (h : deriveArms conv e = .ok arms) :
    ∀ arm ∈ arms, arm.isSome = true := by
  unfold deriveArms at h
  cases hea : EnumAttrs.from_attrs e.attrs with
  | error m =>
    rw [hea] at h
    exact absurd h (by simp [Bind.bind, Except.bind])
  | ok ea =>
    rw [hea] at h
    simp only [Bind.bind, Except.bind, pure, Except.pure, Except.ok.injEq]
      at h
    subst h
    intro arm harm
    rw [List.mem_map] at harm
    obtain ⟨ir, hirmem, rfl⟩ := harm
    by_cases hf : ir.has_format
    · rw [List.any_eq_true.mpr ⟨ir, hirmem, hf⟩]
      exact generate_isSome_of_has_format hf
    · exact generate_isSome_of_no_format _ (Bool.not_eq_true _ ▸ hf)

theorem enum_display_c3_witness :
    (deriveArms (fun _ s => s)
        ⟨[], [⟨"A", [], .unit⟩, ⟨"B", [displayAttr "x"], .unit⟩]⟩
      = .ok [some (.owned "A"), some (.formatArm "x" "B" [])]) ∧
    (some (ArmBody.formatArm "x" "B" []) : Option ArmBody).isSome = true :=
  ⟨rfl,
    enum_display_c3_unreachable_safe (fun _ s => s)
      ⟨[], [⟨"A", [], .unit⟩, ⟨"B", [displayAttr "x"], .unit⟩]⟩
      [some (.owned "A"), some (.formatArm "x" "B" [])] rfl
      (some (ArmBody.formatArm "x" "B" [])) (by decide)⟩

/-- C4: the case-name parser accepts exactly the seventeen fixed names,
mapping each to its case kind, and fails on every other string with the
fatal message naming the offending token. -/
theorem enum_display_c4_case_names :
    (∀ p ∈ ([("Upper", Case.upper), ("Lower", Case.lower),
        ("Title", Case.title), ("Toggle", Case.toggle),
        ("Camel", Case.camel), ("Pascal", Case.pascal),
        ("UpperCamel", Case.upperCamel), ("Snake", Case.snake),
        ("UpperSnake", Case.upperSnake),
        ("ScreamingSnake", Case.screamingSnake), ("Kebab", Case.kebab),
        ("Cobol", Case.cobol), ("UpperKebab", Case.upperKebab),
        ("Train", Case.train), ("Flat", Case.flat),
        ("UpperFlat", Case.upperFlat),
        ("Alternating", Case.alternating)] : List (String × Case)),
      parse_case_name p.1 = .ok p.2) ∧
    (∀ s : String,
      s ∉ (["Upper", "Lower", "Title", "Toggle", "Camel", "Pascal",
        "UpperCamel", "Snake", "UpperSnake", "ScreamingSnake", "Kebab",
        "Cobol", "UpperKebab", "Train", "Flat", "UpperFlat",
        "Alternating"] : List String) →
      parse_case_name s = .error ("Unrecognized case name: " ++ s)) := by
  constructor
  · intro p hp
    fin_cases hp <;> rfl
  · intro s hs
    simp only [List.mem_cons, List.not_mem_nil, or_false] at hs
    push_neg at hs
    obtain ⟨e1, e2, e3, e4, e5, e6, e7, e8, e9, e10, e11, e12, e13, e14,
      e15, e16, e17⟩ := hs
    simp [parse_case_name, e1, e2, e3, e4, e5, e6, e7, e8, e9, e10, e11,
      e12, e13, e14, e15, e16, e17]

theorem enum_display_c4_witness :
    parse_case_name "ScreamingSnake" = .ok Case.screamingSnake ∧
      parse_case_name "Foo" = .error ("Unrecognized case name: " ++ "Foo") :=
  ⟨enum_display_c4_case_names.1 ("ScreamingSnake", Case.screamingSnake)
      (by decide),
    enum_display_c4_case_names.2 "Foo" (by decide)⟩

/-- C8: with several `enum_display(case = ...)` entries present (all
naming recognized cases), parsing raises no error and the last entry
parsed decides the case transform. -/
theorem enum_display_c8_last_case_wins (attrs : List Attribute)
    (ea : EnumAttrs) (s1 s2 : String) (c1 c2 : Case)
    (h : EnumAttrs.from_attrs attrs = .ok ea)
    (h1 : parse_case_name s1 = .ok c1)
    (h2 : parse_case_name s2 = .ok c2) :
    EnumAttrs.from_attrs (attrs ++ [caseAttr s1, caseAttr s2])
      = .ok ⟨some c2⟩ := by
  unfold EnumAttrs.from_attrs at h ⊢
  obtain ⟨acc, hacc⟩ : ∃ acc,
      attrs.foldlM EnumAttrs.applyAttr none = .ok acc := by
    cases hf : attrs.foldlM EnumAttrs.applyAttr none with
    | error m => rw [hf] at h; exact absurd h (by simp [Except.map])
    | ok a => exact ⟨a, rfl⟩
  rw [List.foldlM_append, hacc]
  simp [List.foldlM_cons, List.foldlM_nil, EnumAttrs.applyAttr, caseAttr,
    EnumAttrs.applyNested, h1, h2, Bind.bind, Except.bind, Except.map,
    pure, Except.pure]

theorem enum_display_c8_witness :
    EnumAttrs.from_attrs ([] ++ [caseAttr "Upper", caseAttr "Kebab"])
      = .ok ⟨some Case.kebab⟩ :=
  enum_display_c8_last_case_wins [] ⟨none⟩ "Upper" "Kebab"
    Case.upper Case.kebab rfl rfl rfl

-- The variant attribute reader, characterized through `firstFormatLit`

theorem applyAttr_firstFormatLit (fmt : Option String) (attr : Attribute) :
    VariantAttrs.applyAttr fmt attr
      = match firstFormatLit attr with
        | some s => some (translate_numeric_placeholders s)
        | none => fmt := by
  unfold VariantAttrs.applyAttr firstFormatLit
  by_cases hp : attr.path = "display"
  · rw [if_pos hp, if_pos hp]
    cases hm : attr.meta with
    | metaList p nested =>
      cases nested with
      | nil => rfl
      | cons first rest =>
        cases first with
        | litMeta l => cases l <;> rfl
        | metaNameValue q l => cases l <;> rfl
        | metaPath q => rfl
        | metaList q n2 => rfl
    | metaPath p => rfl
    | metaNameValue p l => rfl
    | litMeta l => rfl
  · rw [if_neg hp, if_neg hp]

theorem foldl_applyAttr_skip (l : List Attribute) (acc : Option String)
    (h : ∀ b ∈ l, firstFormatLit b = none) :
    l.foldl VariantAttrs.applyAttr acc = acc := by
  induction l generalizing acc with
  | nil => rfl
  | cons a l' ih =>
    rw [List.foldl_cons, applyAttr_firstFormatLit]
    simp only [h a (List.mem_cons_self a l')]
    exact ih acc (fun b hb => h b (List.mem_cons_of_mem a hb))

/-- C7 counterexample: the reader does NOT honor the first matching form.
With two bare-literal `display` attributes the LAST one wins, and a
name-value entry whose key is not `format` is accepted rather than
silently ignored. -/
theorem enum_display_c7_counterexample :
    ((VariantAttrs.from_attrs [displayAttr "a", displayAttr "b"]).format
        = some "b") ∧
    ((VariantAttrs.from_attrs [displayAttr "a", displayAttr "b"]).format
        ≠ some "a") ∧
    ((VariantAttrs.from_attrs
        [⟨"display", .metaList "display"
          [.metaNameValue "notformat" (.str "z")]⟩]).format = some "z") :=
  ⟨by decide, by decide, by decide⟩

/-- C7 (amended): the reader inspects only the first list element of each
`display` annotation; a bare string literal or ANY name-value entry with a
string-literal value (the key name is not checked) sets the format, after
placeholder rewriting; when several annotations match, the LAST one parsed
wins; annotations with no matching first element leave the format
unchanged without error, and when none matches there is no custom
format. -/
theorem enum_display_c7_amended (attrs attrs' : List Attribute)
    (a : Attribute) (s : String) (ha : firstFormatLit a = some s)
    (hskip : ∀ b ∈ attrs', firstFormatLit b = none) :
    (VariantAttrs.from_attrs (attrs ++ a :: attrs')
      = ⟨some (translate_numeric_placeholders s)⟩) ∧
    (∀ l : List Attribute, (∀ b ∈ l, firstFormatLit b = none) →
      VariantAttrs.from_attrs l = ⟨none⟩) := by
  constructor
  · unfold VariantAttrs.from_attrs
    rw [List.foldl_append, List.foldl_cons, applyAttr_firstFormatLit]
    simp only [ha]
    rw [foldl_applyAttr_skip attrs'
      (some (translate_numeric_placeholders s)) hskip]
  · intro l hl
    unfold VariantAttrs.from_attrs
    rw [foldl_applyAttr_skip l none hl]

theorem enum_display_c7_witness :
    (VariantAttrs.from_attrs ([displayAttr "a"] ++ displayAttr "{1}"
        :: [⟨"display", .metaList "display" [.litMeta (.int 3)]⟩])
      = ⟨some (translate_numeric_placeholders "{1}")⟩) ∧
    VariantAttrs.from_attrs [] = ⟨none⟩ :=
  ⟨(enum_display_c7_amended [displayAttr "a"]
      [⟨"display", .metaList "display" [.litMeta (.int 3)]⟩]
      (displayAttr "{1}") "{1}" (by decide) (by decide)).1,
    (enum_display_c7_amended [displayAttr "a"]
      [⟨"display", .metaList "display" [.litMeta (.int 3)]⟩]
      (displayAttr "{1}") "{1}" (by decide) (by decide)).2 []
      (by simp)⟩

-- Facts about the decimal rendering of field indices

theorem decDigitChar_mem {d : Nat} (h : d < 10) :
    decDigitChar d ∈ decDigits := by
  interval_cases d <;> decide

theorem decDigits_facts : ∀ c ∈ decDigits, c.isDigit = true ∧
    c.isWhitespace = false ∧ c ≠ '}' ∧ c ≠ '{' ∧ c ≠ ':' := by decide

theorem natDecAux_acc : ∀ (fuel n : Nat) (acc : List Char),
    natDecAux fuel n acc = natDecAux fuel n [] ++ acc := by
  intro fuel
  induction fuel with
  | zero => intro n acc; rfl
  | succ f ih =>
    intro n acc
    simp only [natDecAux]
    by_cases h : n / 10 = 0
    · rw [if_pos h, if_pos h]
      rfl
    · rw [if_neg h, if_neg h, ih (n / 10) (decDigitChar (n % 10) :: acc),
        ih (n / 10) [decDigitChar (n % 10)]]
      simp

theorem natDecAux_fuel : ∀ (f1 f2 n : Nat), n < f1 → n < f2 →
    natDecAux f1 n [] = natDecAux f2 n [] := by
  intro f1
  induction f1 with
  | zero => intro f2 n h1 _; omega
  | succ f ih =>
    intro f2 n h1 h2
    cases f2 with
    | zero => omega
    | succ g =>
      simp only [natDecAux]
      by_cases h : n / 10 = 0
      · rw [if_pos h, if_pos h]
      · rw [if_neg h, if_neg h,
          natDecAux_acc f (n / 10) [decDigitChar (n % 10)],
          natDecAux_acc g (n / 10) [decDigitChar (n % 10)],
          ih g (n / 10) (by omega) (by omega)]

theorem decDigitChar_val {d : Nat} (h : d < 10) :
    (decDigitChar d).toNat - 48 = d := by
  interval_cases d <;> rfl

theorem digitsVal_append_singleton (xs : List Char) (c : Char) :
    digitsVal (xs ++ [c]) = 10 * digitsVal xs + (c.toNat - 48) := by
  simp [digitsVal, List.foldl_append]

theorem digitsVal_natDecAux : ∀ (fuel n : Nat), n < fuel →
    digitsVal (natDecAux fuel n []) = n := by
  intro fuel
  induction fuel with
  | zero => intro n h; omega
  | succ f ih =>
    intro n h
    simp only [natDecAux]
    by_cases h0 : n / 10 = 0
    · rw [if_pos h0]
      have hn : n < 10 := by omega
      have : digitsVal [decDigitChar (n % 10)] = n % 10 := by
        simp [digitsVal, decDigitChar_val (Nat.mod_lt _ (by norm_num))]
      rw [this]
      omega
    · rw [if_neg h0, natDecAux_acc f (n / 10) [decDigitChar (n % 10)],
        digitsVal_append_singleton, ih (n / 10) (by omega),
        decDigitChar_val (Nat.mod_lt _ (by norm_num))]
      omega

theorem natDec_inj : Function.Injective natDec := by
  intro m n h
  have hd : natDecAux (m + 1) m [] = natDecAux (n + 1) n [] :=
    congrArg String.data h
  have hm := digitsVal_natDecAux (m + 1) m (by omega)
  rw [hd, digitsVal_natDecAux (n + 1) n (by omega)] at hm
  exact hm.symm

theorem natDecAux_mem : ∀ (fuel n : Nat) (acc : List Char),
    (∀ c ∈ acc, c ∈ decDigits) → ∀ c ∈ natDecAux fuel n acc,
      c ∈ decDigits := by
  intro fuel
  induction fuel with
  | zero => intro n acc hacc; exact hacc
  | succ f ih =>
    intro n acc hacc
    simp only [natDecAux]
    have hcons : ∀ c ∈ decDigitChar (n % 10) :: acc, c ∈ decDigits := by
      intro c hc
      rcases List.mem_cons.mp hc with rfl | hc'
      · exact decDigitChar_mem (Nat.mod_lt _ (by norm_num))
      · exact hacc c hc'
    by_cases h : n / 10 = 0
    · rw [if_pos h]; exact hcons
    · rw [if_neg h]; exact ih (n / 10) _ hcons

theorem natDec_data_mem (n : Nat) : ∀ c ∈ (natDec n).data, c ∈ decDigits :=
  natDecAux_mem (n + 1) n [] (by simp)

theorem natDec_ne_nil (n : Nat) : (natDec n).data ≠ [] := by
  show natDecAux (n + 1) n [] ≠ []
  simp only [natDecAux]
  by_cases h : n / 10 = 0
  · rw [if_pos h]; simp
  · rw [if_neg h, natDecAux_acc n (n / 10) [decDigitChar (n % 10)]]
    simp

-- The synthetic binding names and the environment lookup

theorem from_fields_unnamed_fields (fs : List Unit) (info : VariantInfo) :
    (UnnamedVariantIR.from_fields_unnamed fs info).fields
      = (List.range fs.length).map (fun i => "_unnamed_" ++ natDec i) := by
  show fs.enum.map (fun p => "_unnamed_" ++ natDec p.1) = _
  rw [List.enum_eq_zip_range]
  have hcomp : (fun p : Nat × Unit => "_unnamed_" ++ natDec p.1)
      = (fun i => "_unnamed_" ++ natDec i) ∘ Prod.fst := rfl
  rw [hcomp, ← List.map_map, List.map_fst_zip _ _ (by simp)]

theorem unnamed_key_ne_variant (i : Nat) :
    ("_unnamed_" ++ natDec i : String) ≠ "variant" := by
  intro h
  have hlen := congrArg String.length h
  rw [String.length_append] at hlen
  have h9 : ("_unnamed_" : String).length = 9 := rfl
  have h7 : ("variant" : String).length = 7 := rfl
  have hpos : 0 < (natDec i).length :=
    List.length_pos.mpr (natDec_ne_nil i)
  rw [h9, h7] at hlen
  omega

theorem unnamed_key_inj :
    Function.Injective (fun i : Nat => ("_unnamed_" ++ natDec i : String)) := by
  intro a b h
  simp only at h
  have hd := congrArg String.data h
  simp only [String.data_append] at hd
  exact natDec_inj (String.ext (List.append_cancel_left hd))

theorem lookup_zip_get {β : Type} :
    ∀ (keys : List String) (vals : List β), keys.Nodup →
      ∀ (i : Nat) (hik : i < keys.length) (hiv : i < vals.length),
        List.lookup (keys.get ⟨i, hik⟩) (keys.zip vals)
          = some (vals.get ⟨i, hiv⟩) := by
  intro keys
  induction keys with
  | nil => intro vals _ i hik _; simp at hik
  | cons k ks ih =>
    intro vals hnd i hik hiv
    cases vals with
    | nil => simp at hiv
    | cons v vs =>
      cases i with
      | zero =>
        have hg : (k :: ks).get ⟨0, hik⟩ = k := rfl
        have hz : (k :: ks).zip (v :: vs) = (k, v) :: ks.zip vs := rfl
        rw [hg, hz]
        have hbeq : (k == k) = true := beq_self_eq_true k
        simp only [List.lookup, hbeq]
        rfl
      | succ j =>
        have hjk : j < ks.length := by simpa using hik
        have hjv : j < vs.length := by simpa using hiv
        have hk : ks.get ⟨j, hjk⟩ ≠ k := by
          intro heq
          exact (List.nodup_cons.mp hnd).1 (heq ▸ List.get_mem ks j hjk)
        have hg : (k :: ks).get ⟨j + 1, hik⟩ = ks.get ⟨j, hjk⟩ := rfl
        have hz : (k :: ks).zip (v :: vs) = (k, v) :: ks.zip vs := rfl
        rw [hg, hz]
        have hbeq : (ks.get ⟨j, hjk⟩ == k) = false :=
          beq_eq_false_iff_ne.mpr hk
        simp only [List.lookup, hbeq]
        exact ih vs (List.nodup_cons.mp hnd).2 j hjk hjv

theorem lookupEnv_cons_ne (p : String × String)
    (env : List (String × String)) (k : String) (h : k ≠ p.1) :
    lookupEnv (p :: env) k = lookupEnv env k := by
  obtain ⟨a, b⟩ := p
  have hbeq : (k == a) = false := beq_eq_false_iff_ne.mpr h
  simp only [lookupEnv, List.lookup, hbeq]

/-- The rewriter on the canonical single numeric placeholder. -/
theorem translate_numeric_index (i : Nat) :
    translate_numeric_placeholders ("\x7b" ++ natDec i ++ "\x7d")
      = "\x7b_unnamed_" ++ natDec i ++ "\x7d" := by
  apply String.ext
  have h1 : ("\x7b" : String).data = ['{'] := rfl
  have h2 : ("\x7d" : String).data = ['}'] := rfl
  simp only [data_translate, String.data_append, h1, h2]
  have hshape : (['{'] ++ (natDec i).data) ++ ['}']
      = '{' :: ((natDec i).data ++ ['}']) := by simp
  rw [hshape]
  have htm : tryMatch ((natDec i).data ++ ['}'])
      = some ((natDec i).data, [], []) := by
    have := @tryMatch_segment (natDec i).data [] []
      (natDec_ne_nil i)
      (fun c hc => (decDigits_facts c (natDec_data_mem i c hc)).1)
      (fun c hc => absurd hc (List.not_mem_nil c))
      (by decide)
    simpa using this
  rw [trP_cons_match htm]
  simp [trP_nil]

/-- The format evaluator on a single well-formed named placeholder: it
returns the environment's value for that name. -/
theorem evalFormat_lookup (env : List (String × String)) (nm : List Char)
    (hne : nm ≠ [])
    (h : ∀ c ∈ nm, c ≠ '}' ∧ c ≠ '{' ∧ c ≠ ':') :
    evalFormat env ⟨'{' :: (nm ++ ['}'])⟩ = lookupEnv env ⟨nm⟩ := by
  obtain ⟨c0, nm', rfl⟩ : ∃ c0 nm', nm = c0 :: nm' := by
    cases nm with
    | nil => exact absurd rfl hne
    | cons a l => exact ⟨a, l, rfl⟩
  have hc0 := h c0 (List.mem_cons_self c0 nm')
  have hrest : ∀ c ∈ nm', c ≠ '}' ∧ c ≠ '{' ∧ c ≠ ':' :=
    fun c hc => h c (List.mem_cons_of_mem c0 hc)
  have hdw : List.dropWhile (fun x => decide (x ≠ '}'))
      (c0 :: (nm' ++ ['}'])) = ['}'] := by
    rw [List.dropWhile_cons_of_pos (by simp [hc0.1]),
      List.dropWhile_append_of_pos (fun c hc => by simp [(hrest c hc).1]),
      List.dropWhile_cons_of_neg (by simp)]
  have htw : List.takeWhile (fun x => decide (x ≠ '}'))
      (c0 :: (nm' ++ ['}'])) = c0 :: nm' := by
    rw [List.takeWhile_cons_of_pos (by simp [hc0.1]),
      List.takeWhile_append_of_pos (fun c hc => by simp [(hrest c hc).1]),
      List.takeWhile_cons_of_neg (by simp), List.append_nil]
  have htc : List.takeWhile (fun x => decide (x ≠ ':')) (c0 :: nm')
      = c0 :: nm' :=
    List.takeWhile_eq_self_iff.mpr (fun c hc => by
      rcases List.mem_cons.mp hc with rfl | hc'
      · simp [hc0.2.2]
      · simp [(hrest c hc').2.2])
  show String.mk (evalFormatAux env
      ('{' :: ((c0 :: nm') ++ ['}'])).length
      ('{' :: ((c0 :: nm') ++ ['}']))) = _
  have hlist : (c0 :: nm') ++ ['}'] = c0 :: (nm' ++ ['}']) := rfl
  simp only [hlist, List.length_cons, evalFormatAux, if_pos rfl]
  rw [List.headD_cons, if_neg hc0.2.1, hdw]
  simp only
  rw [htw, htc]
  have hnil : evalFormatAux env ((nm' ++ ['}']).length + 1) [] = [] := rfl
  simp only [if_true]
  rw [hnil, List.append_nil]

/-- C6: the classifier names positional fields `_unnamed_0, _unnamed_1, …`
in declaration order, as many as there are fields, and rendering a
positional variant whose custom format is `{i}` (through attribute
reading, placeholder rewriting, classification, arm synthesis and format
evaluation) substitutes the i-th field's rendered value, 0-based in
declaration order. -/
theorem enum_display_c6_positional :
    (∀ (fs : List Unit) (info : VariantInfo),
      (UnnamedVariantIR.from_fields_unnamed fs info).fields
        = (List.range fs.length).map (fun i => "_unnamed_" ++ natDec i) ∧
      (UnnamedVariantIR.from_fields_unnamed fs info).fields.length
        = fs.length) ∧
    (∀ (conv : Case → String → String) (ea : EnumAttrs) (name : String)
      (fs : List Unit) (i : Nat) (vals : List String)
      (hi : i < fs.length) (hv : vals.length = fs.length),
      (VariantIR.from_variant conv
          ⟨name, [displayAttr ("\x7b" ++ natDec i ++ "\x7d")],
            .fieldsUnnamed fs⟩ ea).render true vals
        = some (vals.get ⟨i, by omega⟩)) := by
  constructor
  · intro fs info
    refine ⟨from_fields_unnamed_fields fs info, ?_⟩
    rw [from_fields_unnamed_fields fs info]
    simp
  · intro conv ea name fs i vals hi hv
    have hA : VariantAttrs.from_attrs [displayAttr ("\x7b" ++ natDec i ++ "\x7d")]
        = ⟨some (translate_numeric_placeholders
            ("\x7b" ++ natDec i ++ "\x7d"))⟩ := by
      simp [VariantAttrs.from_attrs, VariantAttrs.applyAttr, displayAttr]
    have hinfo : ∀ (fs0 : List Unit) (info0 : VariantInfo),
        (UnnamedVariantIR.from_fields_unnamed fs0 info0).info = info0 :=
      fun _ _ => rfl
    simp only [VariantIR.from_variant, VariantIR.render, VariantIR.generate,
      UnnamedVariantIR.generate, hA, hinfo]
    simp only [Option.map, ArmBody.render, translate_numeric_index i]
    have hkeyfacts : ∀ c ∈ ("_unnamed_" ++ natDec i : String).data,
        c ≠ '}' ∧ c ≠ '{' ∧ c ≠ ':' := by
      intro c hc
      rw [String.data_append] at hc
      rcases List.mem_append.mp hc with hc1 | hc2
      · have hfix : ∀ c ∈ ("_unnamed_" : String).data,
            c ≠ '}' ∧ c ≠ '{' ∧ c ≠ ':' := by decide
        exact hfix c hc1
      · have hf := decDigits_facts c (natDec_data_mem i c hc2)
        exact ⟨hf.2.2.1, hf.2.2.2.1, hf.2.2.2.2⟩
    have hshape : ("\x7b_unnamed_" ++ natDec i ++ "\x7d" : String)
        = ⟨'{' :: (("_unnamed_" ++ natDec i : String).data ++ ['}'])⟩ := by
      apply String.ext
      have hcons : ("\x7b_unnamed_" : String).data
          = '{' :: ("_unnamed_" : String).data := rfl
      have h2 : ("\x7d" : String).data = ['}'] := rfl
      simp [String.data_append, hcons, h2]
    have hne2 : ("_unnamed_" ++ natDec i : String).data ≠ [] := by
      rw [String.data_append]
      simp
    rw [hshape, evalFormat_lookup _ _ hne2 hkeyfacts]
    have hketa : (⟨("_unnamed_" ++ natDec i : String).data⟩ : String)
        = "_unnamed_" ++ natDec i := rfl
    rw [hketa, lookupEnv_cons_ne _ _ _ (unnamed_key_ne_variant i),
      from_fields_unnamed_fields]
    have hik : i < ((List.range fs.length).map
        (fun j => ("_unnamed_" ++ natDec j : String))).length := by
      simp [hi]
    have hkey : ((List.range fs.length).map
        (fun j => ("_unnamed_" ++ natDec j : String))).get ⟨i, hik⟩
        = "_unnamed_" ++ natDec i := by
      simp
    have hnd : ((List.range fs.length).map
        (fun j => ("_unnamed_" ++ natDec j : String))).Nodup :=
      (List.nodup_range fs.length).map unnamed_key_inj
    have hiv : i < vals.length := by omega
    have hlk := lookup_zip_get _ vals hnd i hik hiv
    rw [← hkey]
    simp only [lookupEnv, hlk, Option.getD_some]

theorem enum_display_c6_witness :
    ((UnnamedVariantIR.from_fields_unnamed [(), (), ()]
        ⟨"D", "D", ⟨none⟩⟩).fields
      = (List.range 3).map (fun i => "_unnamed_" ++ natDec i)) ∧
    ((VariantIR.from_variant (fun _ s => s)
        ⟨"D", [displayAttr ("\x7b" ++ natDec 2 ++ "\x7d")],
          .fieldsUnnamed [(), (), ()]⟩
        ⟨none⟩).render true ["1", "2", "1999"]
      = some (["1", "2", "1999"].get ⟨2, by decide⟩)) :=
  ⟨(enum_display_c6_positional.1 [(), (), ()] ⟨"D", "D", ⟨none⟩⟩).1,
    enum_display_c6_positional.2 (fun _ s => s) ⟨none⟩ "D" [(), (), ()] 2
      ["1", "2", "1999"] (by decide) (by decide)⟩
